import Mathlib

/- Shallow embedding of the PDFLecture pipeline (job state machine, TTS providers,
chunking, analysis strategy) together with theorems settling the frozen claims.
Each definition is annotated with the source file and lines it embeds. -/

/- ===== Job data model =====
Job records live in Firestore (collection `lecture-jobs`).  The fields modelled
here are the ones the claims are about: `status`, `progress` (step name,
integer percentage, message), the `analysis` / `script` / `audio` sub-records
(each with an optional `status` string, an optional artifact pointer and a
cost), and the running cost accumulator `total_estimated_cost_usd`.
Firestore dotted-key updates (`progress.percentage`) merge single fields;
a plain key bound to a map (`'script': {...}`) replaces the whole map. -/

structure Progress where
  current_step : String
  percentage : Nat
  message : String
deriving DecidableEq

structure SubRecord where
  status : Option String := none
  storage_path : Option String := none
  cost_usd : Rat := 0
deriving DecidableEq

structure Job where
  status : String
  progress : Progress
  analysis : SubRecord
  script : SubRecord
  audio : SubRecord
  total_estimated_cost_usd : Rat
deriving DecidableEq

/- src/upload_handler/main.py lines 80-103: the job record created at ingestion.
All three sub-records start with status 'pending'; progress is 10%. -/
def uploadJob : Job :=
  { status := "uploaded"
    progress := { current_step := "uploaded", percentage := 10
                  message := "PDF uploaded successfully, starting analysis..." }
    analysis := { status := some "pending" }
    script := { status := some "pending" }
    audio := { status := some "pending" }
    total_estimated_cost_usd := 0 }

/- ===== Analyzer stage (src/services/analyzer/main.py) ===== -/

/- Lines 363-369: first write of the stage, before any work is done. -/
def analyzerStart (j : Job) : Job :=
  { j with status := "analyzing"
           progress := { current_step := "analyzing", percentage := 20
                         message := "Analyzing document with AI..." } }

/- Lines 294-314 (update_job_status, success branch): the `analysis` map is
replaced by a completed record carrying the cost, `total_estimated_cost_usd`
is set to the analysis cost, progress becomes 30%. -/
def analyzerSuccessUpdate (j : Job) (cost : Rat) (path : String) : Job :=
  { j with status := "analyzed"
           analysis := { status := some "completed", storage_path := some path
                         cost_usd := cost }
           total_estimated_cost_usd := cost
           progress := { current_step := "analyzed", percentage := 30
                         message := "Document analysis complete" } }

/- Lines 315-328 (update_job_status, failure branch): the `analysis` map is
replaced by a failed record, and the progress map is replaced with
percentage 0. -/
def analyzerFailureUpdate (j : Job) (err : String) : Job :=
  { j with status := "failed"
           analysis := { status := some "failed" }
           progress := { current_step := "failed", percentage := 0
                         message := "Analysis failed: " ++ err } }

/- Lines 399-415 (trigger_script_generation): the publish call is wrapped in
try/except; a publish failure is only printed, so the job record is returned
unchanged whether or not the publish succeeded. -/
def triggerScriptGeneration (j : Job) (publishOk : Bool) : Job := j

/- Lines 333-396 (analyze_document): start write, then either the success
update followed by the (best-effort) trigger, or the failure update. -/
def analyzerRun (j : Job) (analysisOk : Bool) (cost : Rat) (path : String)
    (publishOk : Bool) (err : String) : Job :=
  let j1 := analyzerStart j
  if analysisOk then triggerScriptGeneration (analyzerSuccessUpdate j1 cost path) publishOk
  else analyzerFailureUpdate j1 err

/- ===== Script generation stage (src/services/script-gen/main.py) ===== -/

/- Lines 145-150: the stage's first write, performed before the job document is
read and before the analysis artifact pointer is checked. -/
def scriptStart (j : Job) : Job :=
  { j with status := "generating_script"
           progress := { current_step := "generating_script", percentage := 40
                         message := "Writing lecture script..." } }

/- Lines 234-245: the final success write.  The plain key `'script'` replaces
the whole sub-record map with {storage_path, section_count, cost_usd} - note
that no `status` field is written.  The cost is added via firestore.Increment,
and the dotted progress keys set percentage 60. -/
def scriptSuccessUpdate (j : Job) (path : String) (totalCost : Rat) : Job :=
  { j with script := { status := none, storage_path := some path
                       cost_usd := totalCost }
           total_estimated_cost_usd := j.total_estimated_cost_usd + totalCost
           status := "generating_audio"
           progress := { current_step := "generating_audio", percentage := 60
                         message := "Script generation complete" } }

/- Lines 252-259 (except handler): only `status` and `progress.message` are
written; the percentage and current_step are left as they are. -/
def scriptFailureUpdate (j : Job) (err : String) : Job :=
  { j with status := "failed"
           progress := { j.progress with
                         message := "Script generation failed: " ++ err } }

/- Lines 118-259 (generate_script): start write; then the analysis artifact
pointer is checked (lines 160-162, raising "No analysis storage path found"
when absent, caught by the except handler); on generation success the final
update runs and trigger_audio_generation (lines 261-273) publishes WITHOUT a
try/except, so a publish failure propagates into the stage's except handler
and the already-updated job is additionally marked failed. -/
def scriptRun (j : Job) (genOk : Bool) (genErr : String) (path : String)
    (sectionCosts : List Rat) (publishOk : Bool) (pubErr : String) : Job :=
  let j1 := scriptStart j
  match j.analysis.storage_path with
  | none => scriptFailureUpdate j1 "No analysis storage path found"
  | some _ =>
    if genOk then
      let j2 := scriptSuccessUpdate j1 path sectionCosts.sum
      if publishOk then j2 else scriptFailureUpdate j2 pubErr
    else scriptFailureUpdate j1 genErr

/- ===== Audio generation stage (src/services/audio-gen/main.py) ===== -/

/- Lines 94-99. -/
def audioStart (j : Job) : Job :=
  { j with status := "generating_audio"
           progress := { current_step := "generating_audio", percentage := 70
                         message := "Synthesizing audio (this may take a while)..." } }

/- Lines 192-208: the audio sub-record IS written with status 'completed',
the audio cost is added via firestore.Increment and progress becomes 100. -/
def audioSuccessUpdate (j : Job) (totalCost : Rat) : Job :=
  { j with status := "completed"
           audio := { status := some "completed", storage_path := none
                      cost_usd := totalCost }
           total_estimated_cost_usd := j.total_estimated_cost_usd + totalCost
           progress := { current_step := "completed", percentage := 100
                         message := "Lecture generation complete! Ready to play." } }

/- Lines 212-218 (except handler): like the script stage, only status and
progress.message are written. -/
def audioFailureUpdate (j : Job) (err : String) : Job :=
  { j with status := "failed"
           progress := { j.progress with
                         message := "Audio generation failed: " ++ err } }

/- Lines 59-218 (generate_audio): start write, script artifact pointer check
(lines 102-104), then per-section synthesis; no next-stage trigger exists. -/
def audioRun (j : Job) (genOk : Bool) (genErr : String)
    (sectionCosts : List Rat) : Job :=
  let j1 := audioStart j
  match j.script.storage_path with
  | none => audioFailureUpdate j1 "No script storage path found"
  | some _ =>
    if genOk then audioSuccessUpdate j1 sectionCosts.sum
    else audioFailureUpdate j1 genErr

/- ===== Status query surface (src/status_handler/main.py) ===== -/

/- Lines 117-119: scriptUrl is issued exactly when the script sub-record's
status field equals 'completed'. -/
def scriptUrlIssued (j : Job) : Bool := j.script.status == some "completed"

/- ===== Progress-percentage write sequences (claim C1) =====
The percentage values written to the job record, in order, by each stage.
Integer floor division models Python's int() truncation of the non-negative
float products (both are monotone in the section index, which is all C1 uses). -/

/- src/upload_handler/main.py line 98. -/
def uploadPcts : List Nat := [10]

/- src/services/analyzer/main.py: 20 at line 367, then 30 (line 311) on
success or 0 (line 324) on failure. -/
def analyzerPcts (ok : Bool) : List Nat := 20 :: (if ok then [30] else [0])

/- src/services/script-gen/main.py: 40 at line 148, then per section i of n
the value 40 + int((i/n)*20) at line 193, then 60 at line 243. -/
def scriptPcts (n : Nat) : List Nat :=
  40 :: (((List.range n).map fun i => 40 + i * 20 / n) ++ [60])

/- src/services/audio-gen/main.py: 70 at line 97, then per section i of n
the value 70 + int(((i+1)/n)*25) at line 186, then 100 at line 205. -/
def audioPcts (n : Nat) : List Nat :=
  70 :: (((List.range n).map fun i => 70 + (i + 1) * 25 / n) ++ [100])

/- The full sequence of percentage writes observed for one job: creation,
then the analyzer stage; if analysis succeeds, the script stage (ns sections)
and the audio stage (na sections).  A failing analyzer stage ends the run. -/
def lifetimePcts (analysisOk : Bool) (ns na : Nat) : List Nat :=
  uploadPcts ++ analyzerPcts analysisOk ++
    (if analysisOk then scriptPcts ns ++ audioPcts na else [])

/- ===== TTS providers (src/audio_generator/tts_providers.py) =====
Times are modelled as exact rationals (the Python floats are the external
API's data; none of the claims depend on float rounding).  A word-timing
record is the dict {word, start, end} built by both providers (`end` is a
Lean keyword, hence the field name endSec). -/

structure WordTiming where
  word : List Char
  startSec : Rat
  endSec : Rat
deriving DecidableEq

/- Python `char.strip()` is falsy exactly when the single character is
whitespace; Char.isWhitespace covers the ASCII whitespace that matters here. -/
def isSpaceChar (c : Char) : Bool := c.isWhitespace

/- Lines 86-112 (ElevenLabsProvider.generate_audio, word-grouping loop).
The loop enumerates characters, breaking as soon as the index reaches the end
of either `character_start_times_seconds` or `character_end_times_seconds`;
this is the zip of the three lists.  State: the accumulated current_word, the
word_start recorded at the word's first character (line 95), and the previous
character's end time, which is what `ends[i-1]` denotes at the boundary write
of line 102.  The end-of-input flush (lines 107-112) uses
`ends[len(current_word)-1]` from the ORIGINAL ends list (with 0.0 when ends
is empty), hence the extra ends0 parameter. -/
def groupWordsAux (ends0 : List Rat) :
    List (Char × Rat × Rat) → List Char → Rat → Rat → List WordTiming
  | [], cur, wstart, _ =>
      if cur.isEmpty then [] else [⟨cur, wstart, ends0.getD (cur.length - 1) 0⟩]
  | (c, s, e) :: rest, cur, wstart, prevEnd =>
      if isSpaceChar c then
        if cur.isEmpty then groupWordsAux ends0 rest cur wstart e
        else ⟨cur, wstart, prevEnd⟩ :: groupWordsAux ends0 rest [] wstart e
      else
        groupWordsAux ends0 rest (cur ++ [c]) (if cur.isEmpty then s else wstart) e

def groupWords (chars : List Char) (starts ends : List Rat) : List WordTiming :=
  groupWordsAux ends (chars.zip (starts.zip ends)) [] 0 0

/- Modelled from the spec's words for claim C2 (the claimed algorithm, to be
compared with groupWords): same greedy scan, but a word closed at a
whitespace boundary takes THAT BOUNDARY character's end-time, and the flushed
final word takes the LAST AVAILABLE end-time. -/
def specGroupWordsAux (ends0 : List Rat) :
    List (Char × Rat × Rat) → List Char → Rat → List WordTiming
  | [], cur, wstart =>
      if cur.isEmpty then [] else [⟨cur, wstart, ends0.getLastD 0⟩]
  | (c, s, e) :: rest, cur, wstart =>
      if isSpaceChar c then
        if cur.isEmpty then specGroupWordsAux ends0 rest cur wstart
        else ⟨cur, wstart, e⟩ :: specGroupWordsAux ends0 rest [] wstart
      else
        specGroupWordsAux ends0 rest (cur ++ [c]) (if cur.isEmpty then s else wstart)

def specGroupWords (chars : List Char) (starts ends : List Rat) : List WordTiming :=
  specGroupWordsAux ends (chars.zip (starts.zip ends)) [] 0

/- Maximal runs of elements on which p is false, each tagged with whether the
run was ended by the end of the input (true) rather than by a separator
(false).  Used to state the amended form of C2 and to model Python's
str.split() (src/audio_generator/tts_providers.py line 187). -/
def runsT (p : α → Bool) : List α → List (List α × Bool)
  | [] => []
  | a :: as =>
    if p a then runsT p as
    else (a :: as.takeWhile (fun x => !(p x)),
          (as.dropWhile (fun x => !(p x))).isEmpty)
         :: runsT p (as.dropWhile (fun x => !(p x)))
termination_by l => l.length
decreasing_by
  · simp
  · have h : (as.dropWhile fun x => !(p x)).length ≤ as.length :=
      (List.dropWhile_suffix _).length_le
    simp only [List.length_cons]
    omega

/- Amended description of the word grouping actually implemented: the words
are the maximal non-whitespace runs of the zipped alignment; a word's start
is its first character's start-time; a word closed by a whitespace boundary
ends at its LAST CHARACTER's end-time, while the final word, when the input
ends with no boundary after it, ends at the end-time found at index
(word length - 1) of the ends list. -/
def amendedTimingOf (ends0 : List Rat) (g : List (Char × Rat × Rat) × Bool) :
    WordTiming :=
  ⟨g.1.map (fun t => t.1),
   (g.1.map fun t => t.2.1).headD 0,
   if g.2 then ends0.getD (g.1.length - 1) 0
   else (g.1.map fun t => t.2.2).getLastD 0⟩

def amendedGroupWords (chars : List Char) (starts ends : List Rat) : List WordTiming :=
  (runsT (fun t => isSpaceChar t.1) (chars.zip (starts.zip ends))).map
    (amendedTimingOf ends)

/- ===== Google TTS chunking (src/audio_generator/tts_providers.py 148-165) ===== -/

/- Line 149: hard ceiling per request (provider limit 5000 bytes, safe 4500). -/
def chunkLIMIT : Nat := 4500

/- One pass of Python str.replace(t + ' ', t + '|'): scanning left to right,
each occurrence of the two-character pattern has its space replaced by '|'
(matches cannot overlap because a character cannot be both t and ' ').
Text is modelled as List Char. -/
def replaceTerm (t : Char) : List Char → List Char
  | [] => []
  | [c] => [c]
  | c :: d :: rest =>
    if c = t ∧ d = ' ' then c :: '|' :: replaceTerm t rest
    else c :: replaceTerm t (d :: rest)
termination_by l => l.length
decreasing_by all_goals simp_arith

/- Line 156: text.replace('. ', '.|').replace('? ', '?|').replace('! ', '!|'). -/
def applyReplaces (l : List Char) : List Char :=
  replaceTerm '!' (replaceTerm '?' (replaceTerm '.' l))

/- Python str.split('|'): splits at every bar, keeping empty pieces. -/
def splitBar : List Char → List (List Char)
  | [] => [[]]
  | c :: rest =>
    if c = '|' then [] :: splitBar rest
    else
      match splitBar rest with
      | [] => [[c]]
      | h :: tl => (c :: h) :: tl

/- Line 156: the sentence list produced before greedy packing. -/
def pySentences (l : List Char) : List (List Char) := splitBar (applyReplaces l)

/- Lines 157-165: greedy packing.  A sentence is appended to the current chunk
while the combined length stays strictly below the limit; otherwise the
current chunk (if nonempty) is emitted and the sentence starts a new chunk;
the final nonempty chunk is emitted at the end. -/
def greedyChunks (limit : Nat) : List (List Char) → List Char → List (List Char)
  | [], cur => if cur.isEmpty then [] else [cur]
  | s :: rest, cur =>
    if cur.length + s.length < limit then greedyChunks limit rest (cur ++ s)
    else (if cur.isEmpty then [] else [cur]) ++ greedyChunks limit rest s

/- Lines 150-165: texts not exceeding the limit are a single chunk, longer
texts are sentence-split and greedily packed. -/
def googleChunks (l : List Char) : List (List Char) :=
  if l.length ≤ chunkLIMIT then [l] else greedyChunks chunkLIMIT (pySentences l) []

/- Helper for the amended C3 statement: removing bars is what concatenating
the pieces of split('|') does to the marked text. -/
def removeBars (l : List Char) : List Char := l.filter (fun c => c ≠ '|')

/- Modelled from the spec's words for claim C3 ("reproduces the original text
up to whitespace adjacent to sentence terminators"): one pass that deletes
the single space following each occurrence of the terminator t. -/
def stripAfter (t : Char) : List Char → List Char
  | [] => []
  | [c] => [c]
  | c :: d :: rest =>
    if c = t ∧ d = ' ' then c :: stripAfter t rest
    else c :: stripAfter t (d :: rest)
termination_by l => l.length
decreasing_by all_goals simp_arith

/- Auxiliary invariant for reasoning about the replace passes: the list never
contains the terminator t immediately followed by the bar marker (bars are
only ever inserted after the terminator of the pass that created them). -/
def noTB (t : Char) : List Char → Prop
  | [] => True
  | [_] => True
  | c :: d :: rest => ¬(c = t ∧ d = '|') ∧ noTB t (d :: rest)
termination_by l => l.length
decreasing_by all_goals simp_arith

/- ===== Google TTS estimated timing (tts_providers.py lines 186-204) ===== -/

/- Python str.split() with no argument: maximal non-whitespace runs. -/
def pyWords (l : List Char) : List (List Char) :=
  (runsT isSpaceChar l).map (fun g => g.1)

/- Lines 193-200: the inner loop appending one uniform-duration timing per
word, advancing chunk_curr by avg_word_dur each time. -/
def chunkWordTimings (ws : List (List Char)) (avg cur : Rat) : List WordTiming :=
  match ws with
  | [] => []
  | w :: rest => ⟨w, cur, cur + avg⟩ :: chunkWordTimings rest avg (cur + avg)

/- Lines 186-204 for a single chunk: words = chunk_text.split(),
wpm = 150 * speaking_rate, duration_est = len(words) / (wpm/60),
avg_word_dur = duration_est / len(words) (0 for no words); returns the
timings and the advanced offset (current_time_offset += duration_est). -/
def googleChunkStep (chunk : List Char) (rate offset : Rat) :
    List WordTiming × Rat :=
  let ws := pyWords chunk
  let wpm : Rat := 150 * rate
  let durationEst : Rat := (ws.length : Rat) / (wpm / 60)
  let avg : Rat := if ws.isEmpty then 0 else durationEst / (ws.length : Rat)
  (chunkWordTimings ws avg offset, offset + durationEst)

/- Lines 172-209: the loop over chunks.  A chunk that is empty after
stripping (line 173: `if not chunk_text.strip(): continue`) is skipped
entirely; otherwise its timings are appended and the offset advances by the
chunk's estimated duration. -/
def googleLoop (chunks : List (List Char)) (rate offset : Rat) :
    List WordTiming × Rat :=
  match chunks with
  | [] => ([], offset)
  | c :: rest =>
    if (c.filter fun ch => !(isSpaceChar ch)).isEmpty then googleLoop rest rate offset
    else
      ((googleChunkStep c rate offset).1
         ++ (googleLoop rest rate (googleChunkStep c rate offset).2).1,
       (googleLoop rest rate (googleChunkStep c rate offset).2).2)

/- The per-chunk estimated duration, for stating offset accumulation. -/
def estDur (rate : Rat) (c : List Char) : Rat :=
  ((pyWords c).length : Rat) / ((150 * rate) / 60)

/- ===== Analysis strategy (src/services/analyzer/main.py 140-264) =====
The generative model and the JSON library are external collaborators; a model
response is its block flag (prompt_feedback.block_reason truthiness) plus its
text, and JSON parsing is an abstract function String → Option α (json.loads
returning a parsed analysis or raising). -/

structure GenResponse where
  blocked : Bool
  text : String

/- Lines 180-184 and 239-243: the optional code-fence stripping applied after
a first parse failure.  Python `"x" in text` is modelled by splitOn producing
more than one piece, and text.split(sep)[1].split(sep2)[0] by splitOn + getD. -/
def stripFence (t : String) : String :=
  if (t.splitOn "```json").length > 1 then
    (((t.splitOn "```json").getD 1 "").splitOn "```").getD 0 ""
  else if (t.splitOn "```").length > 1 then
    (((t.splitOn "```").getD 1 "").splitOn "```").getD 0 ""
  else t

/- Lines 172-185 (vision branch): try json.loads(text); on failure raise if
the text is empty (caught below as fallback), otherwise strip the optional
fence and parse again; any failure here aborts the vision path. -/
def visionParse (parse : String → Option α) (t : String) : Option α :=
  match parse t with
  | some a => some a
  | none => if t = "" then none else parse (stripFence t)

/- Lines 236-244 (text-fallback branch): same retry but with no empty-text
check; a second failure propagates (no further fallback). -/
def textParse (parse : String → Option α) (t : String) : Option α :=
  match parse t with
  | some a => some a
  | none => parse (stripFence t)

/- Lines 223-264: the text path.  It fails permanently when fewer than 50
characters were extracted (lines 224-225); otherwise the fallback response is
parsed and, on success, tagged with method 'text_fallback' (line 262). -/
def textFallback (parse : String → Option α) (extracted : String)
    (textResp : GenResponse) : Except String (α × String) :=
  if extracted.length < 50 then
    Except.error "Text extraction failed or too short. Cannot fallback."
  else
    match textParse parse textResp.text with
    | some a => Except.ok (a, "text_fallback")
    | none => Except.error "fallback response did not parse as JSON"

/- Lines 140-264 (analyze_document_with_gemini): vision first - a blocked
response (lines 168-170), an empty response (lines 177-178) or a parse
failure after fence stripping all raise inside the try and reach the
except-fallback (line 219); a vision success is tagged with method 'vision'
(line 208). -/
def analyzeDocModel (parse : String → Option α) (visionResp : GenResponse)
    (extracted : String) (textResp : GenResponse) : Except String (α × String) :=
  if visionResp.blocked then textFallback parse extracted textResp
  else
    match visionParse parse visionResp.text with
    | some a => Except.ok (a, "vision")
    | none => textFallback parse extracted textResp

/- ===== Concrete inputs used by counterexamples and witnesses ===== -/

/- A job whose analysis stage ran but left no artifact pointer: the
prerequisite of the script stage is absent. -/
def jobNoAnalysisPath : Job :=
  { uploadJob with
    status := "analyzed"
    progress := { current_step := "analyzed", percentage := 30
                  message := "Document analysis complete" }
    analysis := { status := some "failed" } }

/- A job that completed analysis normally (artifact pointer present). -/
def jobAnalyzed : Job :=
  { uploadJob with
    status := "analyzed"
    progress := { current_step := "analyzed", percentage := 30
                  message := "Document analysis complete" }
    analysis := { status := some "completed"
                  storage_path := some "gs://b/uploads/j/analysis.json"
                  cost_usd := 1 }
    total_estimated_cost_usd := 1 }

/- The job record after a fully successful upload - analysis - script
pipeline prefix. -/
def jobAfterScript : Job :=
  scriptRun (analyzerRun uploadJob true 1 "gs://b/uploads/j/analysis.json" true "")
    true "" "gs://b/scripts/j/script.json" [1] true ""

/- A concrete JSON-ish parser for the C10 witness: accepts exactly the two
strings "GOODJSON" and "STRIPPED". -/
def toyParse (s : String) : Option Unit :=
  if s = "GOODJSON" ∨ s = "STRIPPED" then some () else none

/- A long text for the C3 counterexample: a short first sentence, then a
single 5000-character sentence that cannot fit under the 4500 ceiling. -/
def c3LongText : List Char := 'A' :: '.' :: ' ' :: List.replicate 5000 'x'

/- A long text for the C3 witness: total length 4503 > 4500. -/
def c3WitnessText : List Char := 'A' :: '.' :: ' ' :: List.replicate 4500 'x'

/- ================================================================
   Theorems
   ================================================================ -/

/- ----- helper lemmas for C1 ----- -/

theorem scriptPcts_bounds (n : Nat) : ∀ x ∈ scriptPcts n, 40 ≤ x ∧ x ≤ 60 := by
  intro x hx
  simp only [scriptPcts, List.mem_cons, List.mem_append, List.mem_map,
    List.mem_range, List.mem_singleton, List.not_mem_nil, or_false] at hx
  rcases hx with rfl | ⟨i, hi, rfl⟩ | rfl
  · omega
  · have h1 : i * 20 ≤ n * 20 := Nat.mul_le_mul_right _ (le_of_lt hi)
    have h2 : i * 20 / n ≤ n * 20 / n := Nat.div_le_div_right h1
    have h3 : n * 20 / n = 20 := Nat.mul_div_cancel_left 20 (by omega)
    rw [h3] at h2
    exact ⟨Nat.le_add_right 40 _,
      Nat.le_trans (Nat.add_le_add_left h2 40) (by norm_num)⟩
  · omega

theorem audioPcts_bounds (n : Nat) : ∀ x ∈ audioPcts n, 70 ≤ x ∧ x ≤ 100 := by
  intro x hx
  simp only [audioPcts, List.mem_cons, List.mem_append, List.mem_map,
    List.mem_range, List.mem_singleton, List.not_mem_nil, or_false] at hx
  rcases hx with rfl | ⟨i, hi, rfl⟩ | rfl
  · omega
  · have h1 : (i + 1) * 25 ≤ n * 25 := Nat.mul_le_mul_right _ (by omega)
    have h2 : (i + 1) * 25 / n ≤ n * 25 / n := Nat.div_le_div_right h1
    have h3 : n * 25 / n = 25 := Nat.mul_div_cancel_left 25 (by omega)
    rw [h3] at h2
    exact ⟨Nat.le_add_right 70 _,
      Nat.le_trans (Nat.add_le_add_left h2 70) (by norm_num)⟩
  · omega

theorem scriptPcts_sorted (n : Nat) : (scriptPcts n).Sorted (· ≤ ·) := by
  have hmap : ((List.range n).map fun i => 40 + i * 20 / n).Pairwise (· ≤ ·) := by
    refine (List.pairwise_lt_range n).map _ ?_
    intro a b hab
    exact Nat.add_le_add_left
      (Nat.div_le_div_right (Nat.mul_le_mul_right 20 (le_of_lt hab))) 40
  rw [scriptPcts, List.sorted_cons]
  constructor
  · intro b hb
    have := scriptPcts_bounds n b (by simp [scriptPcts, hb])
    omega
  · refine List.pairwise_append.mpr ⟨hmap, by simp, ?_⟩
    intro x hx y hy
    have := scriptPcts_bounds n x (by simp only [scriptPcts, List.mem_cons, List.mem_append]; tauto)
    simp only [List.mem_singleton] at hy
    omega

theorem audioPcts_sorted (n : Nat) : (audioPcts n).Sorted (· ≤ ·) := by
  have hmap : ((List.range n).map fun i => 70 + (i + 1) * 25 / n).Pairwise (· ≤ ·) := by
    refine (List.pairwise_lt_range n).map _ ?_
    intro a b hab
    exact Nat.add_le_add_left
      (Nat.div_le_div_right (Nat.mul_le_mul_right 25 (by omega : a + 1 ≤ b + 1))) 70
  rw [audioPcts, List.sorted_cons]
  constructor
  · intro b hb
    have := audioPcts_bounds n b (by simp [audioPcts, hb])
    omega
  · refine List.pairwise_append.mpr ⟨hmap, by simp, ?_⟩
    intro x hx y hy
    have := audioPcts_bounds n x (by simp only [audioPcts, List.mem_cons, List.mem_append]; tauto)
    simp only [List.mem_singleton] at hy
    omega

/-- C1 counterexample: the claim that the percentage sequence written to a
job record is non-decreasing "including the updates written on stage
failure" is false - a job whose analysis stage fails observes the writes
[10, 20, 0], because the failure branch of update_job_status
(src/services/analyzer/main.py line 324, likewise
src/document_analyzer/main.py line 224) resets the percentage to 0. -/
theorem c1_counterexample : ¬ (lifetimePcts false 0 0).Sorted (· ≤ ·) := by
  decide

/-- C1 amended: the progress percentage is non-decreasing over all updates of
a job whose stages all succeed (any section counts); a stage FAILURE in the
analysis stage resets the percentage to 0, which is the only decreasing
write. -/
theorem c1_amended_progress_monotone (ns na : Nat) :
    (lifetimePcts true ns na).Sorted (· ≤ ·) := by
  have hs := scriptPcts_sorted ns
  have ha := audioPcts_sorted na
  have hsb := scriptPcts_bounds ns
  have hab := audioPcts_bounds na
  simp only [lifetimePcts, uploadPcts, analyzerPcts, if_true, List.cons_append,
    List.nil_append, List.singleton_append]
  rw [List.sorted_cons, List.sorted_cons, List.sorted_cons]
  refine ⟨?_, ?_, ?_, ?_⟩
  · intro b hb
    simp only [List.mem_cons, List.mem_append] at hb
    rcases hb with rfl | rfl | h | h
    · omega
    · omega
    · have := hsb b h; omega
    · have := hab b h; omega
  · intro b hb
    simp only [List.mem_cons, List.mem_append] at hb
    rcases hb with rfl | h | h
    · omega
    · have := hsb b h; omega
    · have := hab b h; omega
  · intro b hb
    simp only [List.mem_append] at hb
    rcases hb with h | h
    · have := hsb b h; omega
    · have := hab b h; omega
  · refine List.pairwise_append.mpr ⟨hs, ha, ?_⟩
    intro x hx y hy
    have h1 := hsb x hx
    have h2 := hab y hy
    omega

/- ----- C4 ----- -/

/-- C4 counterexample: invoking the script stage on a job whose analysis
artifact is absent does leave the job failed, but it DOES advance the
progress percentage, from 30 to 40, because the stage writes its
in-progress update (percentage 40) before checking the precondition
(src/services/script-gen/main.py lines 145-150 vs 160-162). -/
theorem c4_counterexample :
    (scriptRun jobNoAnalysisPath true "" "gs://b/scripts/j/script.json" [] true "").status
        = "failed"
      ∧ (scriptRun jobNoAnalysisPath true "" "gs://b/scripts/j/script.json" [] true
          "").progress.percentage = 40
      ∧ ¬ (scriptRun jobNoAnalysisPath true "" "gs://b/scripts/j/script.json" [] true
          "").progress.percentage ≤ jobNoAnalysisPath.progress.percentage := by
  refine ⟨rfl, rfl, by decide⟩

/-- C4 amended: invoking the script stage on a job whose analysis artifact
pointer is absent always leaves the job with status 'failed' and a
descriptive message, with the percentage equal to 40 - the stage's
in-progress write, performed before the precondition check and not reverted
by the failure handler. -/
theorem c4_amended_precondition (j : Job) (genOk : Bool)
    (genErr path : String) (costs : List Rat) (publishOk : Bool) (pubErr : String)
    (h : j.analysis.storage_path = none) :
    (scriptRun j genOk genErr path costs publishOk pubErr).status = "failed"
      ∧ (scriptRun j genOk genErr path costs publishOk pubErr).progress.percentage = 40
      ∧ (scriptRun j genOk genErr path costs publishOk pubErr).progress.message
          = "Script generation failed: No analysis storage path found" := by
  simp [scriptRun, h, scriptStart, scriptFailureUpdate]

/-- Witness for C4: the amended statement applied to a concrete job with no
analysis artifact. -/
theorem c4_amended_witness :
    (scriptRun jobNoAnalysisPath false "e" "p" [] false "pe").status = "failed"
      ∧ (scriptRun jobNoAnalysisPath false "e" "p" [] false "pe").progress.percentage = 40
      ∧ (scriptRun jobNoAnalysisPath false "e" "p" [] false "pe").progress.message
          = "Script generation failed: No analysis storage path found" :=
  c4_amended_precondition jobNoAnalysisPath false "e" "p" [] false "pe" rfl

/- ----- C7 ----- -/

/-- C7 confirmed: after a fully successful pipeline, the job's cost
accumulator equals the analysis cost plus the sum of the per-section script
costs plus the sum of the per-section audio costs: the analyzer SETS
total_estimated_cost_usd to the analysis cost
(src/services/analyzer/main.py line 308) and the script and audio stages add
their stage totals via firestore.Increment
(src/services/script-gen/main.py line 240, src/services/audio-gen/main.py
line 202), each stage total being the sum of its per-section costs. -/
theorem c7_cost_accumulation (j : Job) (aCost : Rat)
    (apath spath aerr genErr pubErr : String) (sCosts aCosts : List Rat) :
    (audioRun
        (scriptRun (analyzerRun j true aCost apath true aerr)
          true genErr spath sCosts true pubErr)
        true genErr aCosts).total_estimated_cost_usd
      = aCost + sCosts.sum + aCosts.sum := by
  simp [audioRun, scriptRun, analyzerRun, analyzerStart, analyzerSuccessUpdate,
    triggerScriptGeneration, scriptStart, scriptSuccessUpdate, audioStart,
    audioSuccessUpdate]

/- ----- C8 ----- -/

/-- C8 counterexample: a trigger-emission failure is NOT merely logged in
every stage - in the script stage the publish call
(src/services/script-gen/main.py lines 261-273) has no try/except, so the
failure propagates to the stage's except handler, which marks the
otherwise-successfully-completed job 'failed'; the same run with a working
publish ends in 'generating_audio'. -/
theorem c8_counterexample :
    (scriptRun jobAnalyzed true "" "gs://b/scripts/j/script.json" [1] false
        "pubsub unavailable").status = "failed"
      ∧ (scriptRun jobAnalyzed true "" "gs://b/scripts/j/script.json" [1] true
          "").status = "generating_audio" := by
  exact ⟨rfl, rfl⟩

/-- C8 amended: in the ANALYSIS stage a trigger-emission failure is logged
only and leaves the job record exactly as the successful run leaves it
(the publish is wrapped in try/except,
src/services/analyzer/main.py lines 410-415); in the SCRIPT stage a
trigger-emission failure moves the job to 'failed' even though the script
artifact was produced and its sub-record written. -/
theorem c8_amended_trigger_failures :
    (∀ (j : Job) (ok : Bool) (cost : Rat) (path err : String),
        analyzerRun j ok cost path false err = analyzerRun j ok cost path true err)
      ∧ (∀ (j : Job) (genErr path pubErr : String) (costs : List Rat),
          j.analysis.storage_path ≠ none →
            (scriptRun j true genErr path costs false pubErr).status = "failed"
              ∧ (scriptRun j true genErr path costs false pubErr).script.storage_path
                  = some path) := by
  constructor
  · intro j ok cost path err
    rfl
  · intro j genErr path pubErr costs h
    match hpath : j.analysis.storage_path with
    | none => exact absurd hpath h
    | some p =>
      simp [scriptRun, hpath, scriptSuccessUpdate, scriptFailureUpdate, scriptStart]

/-- Witness for C8: the script-stage half applied to a concrete analyzed job
with a failing publish. -/
theorem c8_amended_witness :
    (scriptRun jobAnalyzed true "" "gs://b/scripts/j/script.json" [1] false
        "boom").status = "failed"
      ∧ (scriptRun jobAnalyzed true "" "gs://b/scripts/j/script.json" [1] false
          "boom").script.storage_path = some "gs://b/scripts/j/script.json" :=
  c8_amended_trigger_failures.2 jobAnalyzed "" "gs://b/scripts/j/script.json" "boom" [1]
    (by simp [jobAnalyzed])

/- ----- C9 ----- -/

/-- C9 is a code bug: after a successful script stage the script sub-record
does NOT carry status 'completed' - the success write
(src/services/script-gen/main.py lines 234-245) replaces the script map with
{storage_path, section_count, cost_usd} and never writes a status field, so
the status surface's check `script.status == 'completed'`
(src/status_handler/main.py line 117) never holds and scriptUrl is never
issued, even though the artifact exists and the stage succeeded.  The audio
stage, by contrast, does write status 'completed' into its sub-record. -/
theorem c9_script_status_missing :
    jobAfterScript.status = "generating_audio"
      ∧ jobAfterScript.script.storage_path = some "gs://b/scripts/j/script.json"
      ∧ jobAfterScript.script.status = none
      ∧ scriptUrlIssued jobAfterScript = false
      ∧ (audioRun jobAfterScript true "" [1]).audio.status = some "completed" := by
  exact ⟨rfl, rfl, rfl, rfl, rfl⟩

/- ----- C5 ----- -/

/-- C5 is a code bug: the end-of-input flush of the ElevenLabs word grouping
uses `ends[len(current_word)-1]`
(src/audio_generator/tts_providers.py line 111), which indexes the ends list
by the word's LENGTH instead of taking the last available end time, so for a
perfectly well-formed character alignment (per-character start <= end,
chronological: here chars [' ','a'], starts [0,2], ends [1,3]) the flushed
word 'a' is emitted with start 2 and end 1, violating the data-model
invariant start <= end. -/
theorem c5_flush_violation :
    groupWords [' ', 'a'] [0, 2] [1, 3] = [⟨['a'], 2, 1⟩]
      ∧ ¬ (∀ t ∈ groupWords [' ', 'a'] [0, 2] [1, 3], t.startSec ≤ t.endSec) := by
  refine ⟨rfl, ?_⟩
  intro h
  have := h ⟨['a'], 2, 1⟩ (by rw [show groupWords [' ', 'a'] [0, 2] [1, 3]
    = [⟨['a'], 2, 1⟩] from rfl]; simp)
  norm_num at this

/- ----- C6 ----- -/

theorem chunkWordTimings_uniform (ws : List (List Char)) :
    ∀ (avg cur : Rat), ∀ t ∈ chunkWordTimings ws avg cur,
      t.endSec - t.startSec = avg := by
  induction ws with
  | nil => intro avg cur t ht; simp [chunkWordTimings] at ht
  | cons w rest ih =>
    intro avg cur t ht
    rw [chunkWordTimings] at ht
    rcases List.mem_cons.mp ht with rfl | ht
    · simp
    · exact ih avg _ t ht

theorem blank_runsT_nil (c : List Char) :
    (c.filter fun ch => !(isSpaceChar ch)).isEmpty = true →
      runsT isSpaceChar c = [] := by
  induction c with
  | nil => intro _; rw [runsT]
  | cons a as ih =>
    intro h
    by_cases ha : isSpaceChar a
    · rw [runsT, if_pos ha]
      exact ih (by simpa [ha] using h)
    · simp [ha] at h

theorem estDur_blank (rate : Rat) (c : List Char)
    (h : (c.filter fun ch => !(isSpaceChar ch)).isEmpty = true) :
    estDur rate c = 0 := by
  simp [estDur, pyWords, blank_runsT_nil c h]

theorem googleLoop_offset (rate : Rat) :
    ∀ (chunks : List (List Char)) (offset : Rat),
      (googleLoop chunks rate offset).2 = offset + (chunks.map (estDur rate)).sum := by
  intro chunks
  induction chunks with
  | nil => intro offset; simp [googleLoop]
  | cons c rest ih =>
    intro offset
    by_cases hb : (c.filter fun ch => !(isSpaceChar ch)).isEmpty
    · rw [googleLoop, if_pos hb, ih]
      simp [estDur_blank rate c hb]
    · rw [googleLoop, if_neg hb]
      have hstep : (googleChunkStep c rate offset).2 = offset + estDur rate c := rfl
      show (googleLoop rest rate (googleChunkStep c rate offset).2).2 = _
      rw [hstep, ih]
      simp only [List.map_cons, List.sum_cons]
      ring

/-- C6 confirmed: for the estimating (Google) provider a chunk of w words at
effective speaking rate r = 150 * speaking_rate words per minute gets total
estimated duration 60*w/r; every word of the chunk gets the same uniform
duration (60*w/r)/w; and the loop over chunks accumulates the estimated
durations of all prior chunks into the offset at which each subsequent chunk
is synthesized (src/audio_generator/tts_providers.py lines 186-204). -/
theorem c6_estimated_timing (rate offset : Rat) (chunk : List Char)
    (chunks : List (List Char)) :
    (googleChunkStep chunk rate offset).2
        = offset + 60 * ((pyWords chunk).length : Rat) / (150 * rate)
      ∧ (∀ t ∈ (googleChunkStep chunk rate offset).1,
          t.endSec - t.startSec
            = 60 * ((pyWords chunk).length : Rat) / (150 * rate)
                / ((pyWords chunk).length : Rat))
      ∧ (googleLoop chunks rate offset).2 = offset + (chunks.map (estDur rate)).sum
      ∧ ((chunk.filter fun ch => !(isSpaceChar ch)).isEmpty = false →
          googleLoop (chunk :: chunks) rate offset
            = ((googleChunkStep chunk rate offset).1
                ++ (googleLoop chunks rate (offset + estDur rate chunk)).1,
               (googleLoop chunks rate (offset + estDur rate chunk)).2)) := by
  have hdur : ((pyWords chunk).length : Rat) / (150 * rate / 60)
      = 60 * ((pyWords chunk).length : Rat) / (150 * rate) := by
    rw [div_div_eq_mul_div, mul_comm]
  refine ⟨?_, ?_, googleLoop_offset rate chunks offset, ?_⟩
  · show offset + ((pyWords chunk).length : Rat) / (150 * rate / 60)
        = offset + 60 * ((pyWords chunk).length : Rat) / (150 * rate)
    rw [hdur]
  · intro t ht
    by_cases hw : (pyWords chunk).isEmpty
    · rw [show (googleChunkStep chunk rate offset).1
          = chunkWordTimings (pyWords chunk) 0 offset from by
            simp [googleChunkStep, hw]] at ht
      rw [List.isEmpty_iff.mp hw] at ht
      simp [chunkWordTimings] at ht
    · have havg : (googleChunkStep chunk rate offset).1
          = chunkWordTimings (pyWords chunk)
              (((pyWords chunk).length : Rat) / (150 * rate / 60)
                / ((pyWords chunk).length : Rat)) offset := by
        simp [googleChunkStep, hw]
      rw [havg] at ht
      rw [chunkWordTimings_uniform _ _ _ t ht, hdur]
  · intro hb
    rw [googleLoop, if_neg (by rw [hb]; exact Bool.false_ne_true)]
    rfl

/-- Witness for C6 at a concrete three-word chunk, rate 1, offset 0, with one
following chunk. -/
theorem c6_witness :
    (googleChunkStep "one two three".toList 1 0).2
        = 0 + 60 * ((pyWords "one two three".toList).length : Rat) / (150 * 1)
      ∧ (∀ t ∈ (googleChunkStep "one two three".toList 1 0).1,
          t.endSec - t.startSec
            = 60 * ((pyWords "one two three".toList).length : Rat) / (150 * 1)
                / ((pyWords "one two three".toList).length : Rat))
      ∧ (googleLoop ["go".toList] 1 0).2 = 0 + (["go".toList].map (estDur 1)).sum
      ∧ googleLoop ("one two three".toList :: ["go".toList]) 1 0
          = ((googleChunkStep "one two three".toList 1 0).1
              ++ (googleLoop ["go".toList] 1 (0 + estDur 1 "one two three".toList)).1,
             (googleLoop ["go".toList] 1 (0 + estDur 1 "one two three".toList)).2) := by
  have h := c6_estimated_timing 1 0 "one two three".toList ["go".toList]
  exact ⟨h.1, h.2.1, h.2.2.1, h.2.2.2 (by decide)⟩

/- ----- C10 ----- -/

theorem textFallback_ok_method {α : Type} (parse : String → Option α)
    (extracted : String) (textResp : GenResponse) (a : α) (m : String)
    (h : textFallback parse extracted textResp = Except.ok (a, m)) :
    m = "text_fallback" := by
  rw [textFallback] at h
  by_cases hl : extracted.length < 50
  · rw [if_pos hl] at h; exact absurd h (by simp)
  · rw [if_neg hl] at h
    cases hp : textParse parse textResp.text with
    | none => rw [hp] at h; exact absurd h (by simp)
    | some b =>
      rw [hp] at h
      have hpair := Except.ok.inj h
      have hm : "text_fallback" = m := congrArg Prod.snd hpair
      exact hm.symm

/-- C10 confirmed: (1) if the vision response is blocked, or its text is
empty, or its text fails to parse as JSON even after stripping an optional
code fence, the analysis falls back to the text path; (2) on that fallback
path an extraction of fewer than 50 characters raises the permanent error
'Text extraction failed or too short. Cannot fallback.' with no further
fallback; (3) every successful analysis records the chosen path in its
metadata: 'vision' exactly when the un-blocked vision response parsed, and
'text_fallback' otherwise (src/services/analyzer/main.py lines 140-264).
The hypothesis parse "" = none reflects that json.loads raises on an empty
document. -/
theorem c10_analysis_fallback {α : Type} (parse : String → Option α)
    (visionResp : GenResponse) (extracted : String) (textResp : GenResponse)
    (hEmpty : parse "" = none) :
    ((visionResp.blocked = true ∨ visionResp.text = ""
        ∨ visionParse parse visionResp.text = none) →
        analyzeDocModel parse visionResp extracted textResp
          = textFallback parse extracted textResp)
      ∧ ((visionResp.blocked = true ∨ visionParse parse visionResp.text = none) →
          extracted.length < 50 →
            analyzeDocModel parse visionResp extracted textResp
              = Except.error "Text extraction failed or too short. Cannot fallback.")
      ∧ (∀ (a : α) (m : String),
          analyzeDocModel parse visionResp extracted textResp = Except.ok (a, m) →
            (m = "vision" ∨ m = "text_fallback")
              ∧ (m = "vision" ↔ visionResp.blocked = false
                  ∧ visionParse parse visionResp.text ≠ none)) := by
  have hEmptyVision : visionResp.text = "" →
      visionParse parse visionResp.text = none := by
    intro he
    rw [he]
    simp [visionParse, hEmpty]
  have hFall : (visionResp.blocked = true ∨ visionParse parse visionResp.text = none) →
      analyzeDocModel parse visionResp extracted textResp
        = textFallback parse extracted textResp := by
    intro h
    rcases h with hb | hp
    · simp [analyzeDocModel, hb]
    · by_cases hb : visionResp.blocked
      · simp [analyzeDocModel, hb]
      · simp [analyzeDocModel, hb, hp]
  refine ⟨?_, ?_, ?_⟩
  · intro h
    rcases h with hb | he | hp
    · exact hFall (Or.inl hb)
    · exact hFall (Or.inr (hEmptyVision he))
    · exact hFall (Or.inr hp)
  · intro h hlen
    rw [hFall h, textFallback, if_pos hlen]
  · intro a m hok
    by_cases hb : visionResp.blocked
    · have hm := textFallback_ok_method parse extracted textResp a m
        (by rw [← hFall (Or.inl hb)]; exact hok)
      subst hm
      refine ⟨Or.inr rfl, ?_⟩
      constructor
      · intro hcontra; exact absurd hcontra (by decide)
      · rintro ⟨hb2, -⟩; rw [hb] at hb2; exact absurd hb2 (by decide)
    · rw [Bool.not_eq_true] at hb
      cases hv : visionParse parse visionResp.text with
      | some a0 =>
        have : analyzeDocModel parse visionResp extracted textResp
            = Except.ok (a0, "vision") := by
          simp [analyzeDocModel, hb, hv]
        rw [this] at hok
        have hpair := Except.ok.inj hok
        have hm : "vision" = m := congrArg Prod.snd hpair
        subst hm
        exact ⟨Or.inl rfl, by simp [hb, hv]⟩
      | none =>
        have hm := textFallback_ok_method parse extracted textResp a m
          (by rw [← hFall (Or.inr hv)]; exact hok)
        subst hm
        refine ⟨Or.inr rfl, ?_⟩
        constructor
        · intro hcontra; exact absurd hcontra (by decide)
        · rintro ⟨-, hne⟩; exact absurd rfl hne

/-- Witness for C10: a blocked vision response together with a too-short
extraction yields the permanent fallback error, using a concrete toy
parser. -/
theorem c10_witness :
    analyzeDocModel toyParse ⟨true, "irrelevant"⟩ "short" ⟨false, "GOODJSON"⟩
      = Except.error "Text extraction failed or too short. Cannot fallback." :=
  (c10_analysis_fallback toyParse ⟨true, "irrelevant"⟩ "short" ⟨false, "GOODJSON"⟩
      (by decide)).2.1 (Or.inl rfl) (by decide)

/- ----- C2 ----- -/

theorem dropWhile_head_false (q : α → Bool) :
    ∀ (l : List α) (b : α) (rb : List α), l.dropWhile q = b :: rb → q b = false := by
  intro l
  induction l with
  | nil => intro b rb h; simp [List.dropWhile] at h
  | cons a as ih =>
    intro b rb h
    rw [List.dropWhile_cons] at h
    cases hqa : q a with
    | true => rw [if_pos hqa] at h; exact ih b rb h
    | false =>
      rw [if_neg (by rw [hqa]; exact Bool.false_ne_true)] at h
      injection h with h1 _
      rw [← h1]
      exact hqa

theorem groupWordsAux_flush (ends0 : List Rat) :
    ∀ (tw : List (Char × Rat × Rat)), (∀ x ∈ tw, isSpaceChar x.1 = false) →
      ∀ (cur : List Char), cur.isEmpty = false → ∀ (wstart prevEnd : Rat),
        groupWordsAux ends0 tw cur wstart prevEnd
          = [⟨cur ++ tw.map (fun t => t.1), wstart,
              ends0.getD (cur.length + tw.length - 1) 0⟩] := by
  intro tw
  induction tw with
  | nil =>
    intro _ cur hc wstart prevEnd
    rw [groupWordsAux, if_neg (by rw [hc]; exact Bool.false_ne_true)]
    simp
  | cons x tw' ih =>
    obtain ⟨c, s, e⟩ := x
    intro hall cur hc wstart prevEnd
    have hcsp : isSpaceChar c = false := hall (c, s, e) (List.mem_cons_self _ _)
    rw [groupWordsAux, if_neg (by rw [hcsp]; exact Bool.false_ne_true),
      if_neg (by rw [hc]; exact Bool.false_ne_true)]
    rw [ih (fun y hy => hall y (List.mem_cons_of_mem _ hy)) (cur ++ [c])
      (by simp) wstart e]
    have hlen : (cur ++ [c]).length + tw'.length - 1
        = cur.length + (tw'.length + 1) - 1 := by
      simp [List.length_append]
    simp only [hlen, List.map_cons, List.length_cons, List.append_assoc,
      List.singleton_append]

theorem groupWordsAux_boundary (ends0 : List Rat) :
    ∀ (tw : List (Char × Rat × Rat)), (∀ x ∈ tw, isSpaceChar x.1 = false) →
      ∀ (b : Char × Rat × Rat), isSpaceChar b.1 = true →
        ∀ (rb : List (Char × Rat × Rat)) (cur : List Char), cur.isEmpty = false →
          ∀ (wstart prevEnd : Rat),
            groupWordsAux ends0 (tw ++ b :: rb) cur wstart prevEnd
              = ⟨cur ++ tw.map (fun t => t.1), wstart,
                  (tw.map fun t => t.2.2).getLastD prevEnd⟩
                  :: groupWordsAux ends0 rb [] wstart b.2.2 := by
  intro tw
  induction tw with
  | nil =>
    intro _ b hb rb cur hc wstart prevEnd
    obtain ⟨bc, bs, be⟩ := b
    rw [List.nil_append, groupWordsAux, if_pos hb,
      if_neg (by rw [hc]; exact Bool.false_ne_true)]
    simp
  | cons x tw' ih =>
    obtain ⟨c, s, e⟩ := x
    intro hall b hb rb cur hc wstart prevEnd
    have hcsp : isSpaceChar c = false := hall (c, s, e) (List.mem_cons_self _ _)
    rw [List.cons_append, groupWordsAux,
      if_neg (by rw [hcsp]; exact Bool.false_ne_true),
      if_neg (by rw [hc]; exact Bool.false_ne_true)]
    rw [ih (fun y hy => hall y (List.mem_cons_of_mem _ hy)) b hb rb (cur ++ [c])
      (by simp) wstart e]
    simp only [List.map_cons, List.append_assoc, List.singleton_append,
      List.getLastD_cons]

theorem groupWordsAux_runsT (ends0 : List Rat) :
    ∀ (n : Nat) (l : List (Char × Rat × Rat)), l.length ≤ n →
      ∀ (wstart prevEnd : Rat),
        groupWordsAux ends0 l [] wstart prevEnd
          = (runsT (fun t => isSpaceChar t.1) l).map (amendedTimingOf ends0) := by
  intro n
  induction n with
  | zero =>
    intro l hl wstart prevEnd
    obtain rfl : l = [] := List.length_eq_zero.mp (Nat.le_zero.mp hl)
    rw [groupWordsAux, runsT]
    simp
  | succ n ih =>
    intro l hl wstart prevEnd
    cases l with
    | nil => rw [groupWordsAux, runsT]; simp
    | cons x xs =>
      obtain ⟨c, s, e⟩ := x
      by_cases hsp : isSpaceChar c
      · rw [groupWordsAux, if_pos hsp,
          if_pos (show ([] : List Char).isEmpty = true from rfl)]
        rw [ih xs (by rw [List.length_cons] at hl; omega) wstart e]
        rw [runsT, if_pos hsp]
      · have hspf : isSpaceChar c = false := by
          cases h : isSpaceChar c
          · rfl
          · exact absurd h hsp
        rw [groupWordsAux, if_neg hsp,
          if_pos (show ([] : List Char).isEmpty = true from rfl), List.nil_append]
        have hsplit := (List.takeWhile_append_dropWhile
          (p := fun t : Char × Rat × Rat => !(isSpaceChar t.1)) (l := xs)).symm
        have htw : ∀ y ∈ xs.takeWhile (fun t : Char × Rat × Rat => !(isSpaceChar t.1)),
            isSpaceChar y.1 = false := by
          intro y hy
          have := List.mem_takeWhile_imp hy
          simpa using this
        cases hrest : xs.dropWhile (fun t : Char × Rat × Rat => !(isSpaceChar t.1)) with
        | nil =>
          have hxs2 : xs = xs.takeWhile (fun t : Char × Rat × Rat => !(isSpaceChar t.1)) := by
            conv_lhs => rw [hsplit]
            rw [hrest, List.append_nil]
          rw [show groupWordsAux ends0 xs [c] s e
              = groupWordsAux ends0
                  (xs.takeWhile (fun t : Char × Rat × Rat => !(isSpaceChar t.1))) [c] s e
            from by rw [← hxs2]]
          rw [groupWordsAux_flush ends0 _ htw [c] rfl s e]
          rw [runsT, if_neg hsp, hrest]
          rw [runsT]
          simp [amendedTimingOf]
        | cons b rb =>
          have hb : isSpaceChar b.1 = true := by
            have := dropWhile_head_false _ xs b rb hrest
            simpa using this
          have hxs2 : xs = xs.takeWhile (fun t : Char × Rat × Rat => !(isSpaceChar t.1))
              ++ b :: rb := by
            conv_lhs => rw [hsplit]
            rw [hrest]
          rw [show groupWordsAux ends0 xs [c] s e
              = groupWordsAux ends0
                  (xs.takeWhile (fun t : Char × Rat × Rat => !(isSpaceChar t.1))
                    ++ b :: rb) [c] s e
            from by rw [← hxs2]]
          rw [groupWordsAux_boundary ends0 _ htw b hb rb [c] rfl s e]
          have hrb : rb.length ≤ n := by
            have hsuf : (xs.dropWhile
                  (fun t : Char × Rat × Rat => !(isSpaceChar t.1))).length ≤ xs.length :=
              (List.dropWhile_suffix _).length_le
            rw [hrest, List.length_cons] at hsuf
            rw [List.length_cons] at hl
            omega
          rw [ih rb hrb s b.2.2]
          rw [runsT, if_neg hsp, hrest]
          rw [show runsT (fun t : Char × Rat × Rat => isSpaceChar t.1) (b :: rb)
              = runsT (fun t : Char × Rat × Rat => isSpaceChar t.1) rb
            from by rw [runsT, if_pos hb]]
          simp only [List.isEmpty_cons, List.map_cons]
          rw [amendedTimingOf]
          simp only [List.map_cons, List.headD_cons, List.getLastD_cons,
            List.singleton_append]
          simp

/-- C2 counterexample: on the four-character alignment 'h','i',' ','a' with
start times [0,1,2,3] and end times [1,2,3,4], the implemented grouping
closes 'hi' with end time 2 (the end of its last character, ends[i-1] at
src/audio_generator/tts_providers.py line 102) where the claim requires the
boundary character's end time 3, and flushes 'a' with end time 1
(ends[len('a')-1] = ends[0], line 111) where the claim requires the last
available end time 4; hence the claimed algorithm and the implemented one
disagree. -/
theorem c2_counterexample :
    groupWords ['h', 'i', ' ', 'a'] [0, 1, 2, 3] [1, 2, 3, 4]
        = [⟨['h', 'i'], 0, 2⟩, ⟨['a'], 3, 1⟩]
      ∧ specGroupWords ['h', 'i', ' ', 'a'] [0, 1, 2, 3] [1, 2, 3, 4]
          = [⟨['h', 'i'], 0, 3⟩, ⟨['a'], 3, 4⟩]
      ∧ groupWords ['h', 'i', ' ', 'a'] [0, 1, 2, 3] [1, 2, 3, 4]
          ≠ specGroupWords ['h', 'i', ' ', 'a'] [0, 1, 2, 3] [1, 2, 3, 4] := by
  refine ⟨rfl, rfl, by decide⟩

/-- C2 amended: the implemented grouping scans characters left to right and
emits exactly the maximal non-whitespace runs of the (zipped) alignment; a
word's start time is its first character's start time; a word closed at a
whitespace boundary takes the end time of its LAST CHARACTER (the character
preceding the boundary, ends[i-1]); the final word, when the input ends with
no boundary after it, takes the end time found at index (word length - 1) of
the end-times list. -/
theorem c2_amended_word_grouping (chars : List Char) (starts ends : List Rat) :
    groupWords chars starts ends = amendedGroupWords chars starts ends := by
  rw [groupWords, amendedGroupWords]
  exact groupWordsAux_runsT ends (chars.zip (starts.zip ends)).length _ le_rfl 0 0

/- ----- C3 ----- -/

theorem greedyChunks_flatten (limit : Nat) :
    ∀ (sents : List (List Char)) (cur : List Char),
      (greedyChunks limit sents cur).flatten = cur ++ sents.flatten := by
  intro sents
  induction sents with
  | nil =>
    intro cur
    rw [greedyChunks]
    by_cases h : cur.isEmpty
    · rw [if_pos h, List.isEmpty_iff.mp h]
      simp
    · rw [if_neg h]
      simp
  | cons s rest ih =>
    intro cur
    rw [greedyChunks]
    by_cases h : cur.length + s.length < limit
    · rw [if_pos h, ih]
      simp
    · rw [if_neg h]
      by_cases hc : cur.isEmpty
      · rw [if_pos hc, List.isEmpty_iff.mp hc]
        simp [ih]
      · rw [if_neg hc]
        simp [ih]

theorem splitBar_ne_nil : ∀ l : List Char, splitBar l ≠ [] := by
  intro l
  cases l with
  | nil => rw [splitBar]; simp
  | cons c rest =>
    rw [splitBar]
    by_cases h : c = '|'
    · rw [if_pos h]; simp
    · rw [if_neg h]
      cases hs : splitBar rest with
      | nil => simp
      | cons hd tl => simp

theorem removeBars_cons_bar (l : List Char) :
    removeBars ('|' :: l) = removeBars l := by
  simp [removeBars]

theorem removeBars_cons_ne (c : Char) (l : List Char) (h : c ≠ '|') :
    removeBars (c :: l) = c :: removeBars l := by
  simp [removeBars, h]

theorem splitBar_flatten : ∀ l : List Char, (splitBar l).flatten = removeBars l := by
  intro l
  induction l with
  | nil => rw [splitBar]; simp [removeBars]
  | cons c rest ih =>
    rw [splitBar]
    by_cases h : c = '|'
    · rw [if_pos h, h, removeBars_cons_bar]
      simpa using ih
    · rw [if_neg h, removeBars_cons_ne c rest h]
      cases hs : splitBar rest with
      | nil => exact absurd hs (splitBar_ne_nil rest)
      | cons hd tl =>
        rw [hs] at ih
        simp only [List.flatten_cons] at ih ⊢
        rw [List.cons_append, ih]

theorem greedyChunks_mem (limit : Nat) (S : List (List Char)) :
    ∀ (sents : List (List Char)) (cur : List Char),
      (∀ s ∈ sents, s ∈ S) →
      (cur.isEmpty = true ∨ cur.length < limit ∨ cur ∈ S) →
      ∀ ch ∈ greedyChunks limit sents cur, ch.length < limit ∨ ch ∈ S := by
  intro sents
  induction sents with
  | nil =>
    intro cur _ hcur ch hch
    rw [greedyChunks] at hch
    by_cases hc : cur.isEmpty
    · rw [if_pos hc] at hch
      simp at hch
    · rw [if_neg hc] at hch
      obtain rfl : ch = cur := by simpa using hch
      rcases hcur with h | h | h
      · exact absurd h hc
      · exact Or.inl h
      · exact Or.inr h
  | cons s rest ih =>
    intro cur hS hcur ch hch
    rw [greedyChunks] at hch
    by_cases h : cur.length + s.length < limit
    · rw [if_pos h] at hch
      refine ih (cur ++ s) (fun x hx => hS x (List.mem_cons_of_mem _ hx))
        (Or.inr (Or.inl (by rw [List.length_append]; exact h))) ch hch
    · rw [if_neg h] at hch
      have hrest : ∀ x ∈ rest, x ∈ S := fun x hx => hS x (List.mem_cons_of_mem _ hx)
      have hsS : s ∈ S := hS s (List.mem_cons_self _ _)
      by_cases hc : cur.isEmpty
      · rw [if_pos hc, List.nil_append] at hch
        exact ih s hrest (Or.inr (Or.inr hsS)) ch hch
      · rw [if_neg hc] at hch
        rcases List.mem_append.mp hch with hch1 | hch2
        · obtain rfl : ch = cur := by simpa using hch1
          rcases hcur with h1 | h1 | h1
          · exact absurd h1 hc
          · exact Or.inl h1
          · exact Or.inr h1
        · exact ih s hrest (Or.inr (Or.inr hsS)) ch hch2

theorem noTB_nil (t : Char) : noTB t [] := by
  rw [noTB]; trivial

theorem noTB_single (t c : Char) : noTB t [c] := by
  rw [noTB]; trivial

theorem noTB_cons_pair (t c : Char) (m : List Char)
    (hsafe : ∀ hd, m.head? = some hd → ¬(c = t ∧ hd = '|'))
    (hm : noTB t m) : noTB t (c :: m) := by
  cases m with
  | nil => exact noTB_single t c
  | cons d r =>
    rw [noTB]
    exact ⟨hsafe d rfl, hm⟩

theorem noTB_of_cons (t c : Char) (m : List Char) (h : noTB t (c :: m)) :
    noTB t m := by
  cases m with
  | nil => exact noTB_nil t
  | cons d r => rw [noTB] at h; exact h.2

theorem bar_not_mem_noTB (t : Char) : ∀ l : List Char, '|' ∉ l → noTB t l := by
  intro l
  induction l with
  | nil => intro _; exact noTB_nil t
  | cons c rest ih =>
    intro h
    refine noTB_cons_pair t c rest ?_ (ih fun hm => h (List.mem_cons_of_mem _ hm))
    intro hd hhd hand
    cases rest with
    | nil => simp at hhd
    | cons a r =>
      simp only [List.head?_cons, Option.some.injEq] at hhd
      apply h
      apply List.mem_cons_of_mem
      rw [← hhd] at hand
      rw [← hand.2]
      exact List.mem_cons_self _ _

theorem replaceTerm_headQ (t d : Char) (m : List Char) :
    (replaceTerm t (d :: m)).head? = some d := by
  cases m with
  | nil => rw [replaceTerm]; rfl
  | cons e r =>
    rw [replaceTerm]
    split <;> rfl

theorem noTB_replaceTerm_of_not_mem (tq t : Char) (ht : tq ≠ t) (hb : tq ≠ '|') :
    ∀ (n : Nat) (l : List Char), l.length ≤ n → '|' ∉ l →
      noTB tq (replaceTerm t l) := by
  intro n
  induction n with
  | zero =>
    intro l hl _
    obtain rfl := List.length_eq_zero.mp (Nat.le_zero.mp hl)
    rw [replaceTerm]
    exact noTB_nil tq
  | succ n ih =>
    intro l hl hbar
    cases l with
    | nil => rw [replaceTerm]; exact noTB_nil tq
    | cons c rest =>
      cases rest with
      | nil => rw [replaceTerm]; exact noTB_single tq c
      | cons d r =>
        rw [List.length_cons, List.length_cons] at hl
        by_cases hcd : c = t ∧ d = ' '
        · rw [replaceTerm, if_pos hcd]
          refine noTB_cons_pair tq c _ (fun hd hhd hand => ht (by rw [← hand.1, hcd.1])) ?_
          refine noTB_cons_pair tq '|' _ (fun hd hhd hand => hb hand.1.symm) ?_
          exact ih r (by omega)
            (fun hm => hbar (List.mem_cons_of_mem _ (List.mem_cons_of_mem _ hm)))
        · rw [replaceTerm, if_neg hcd]
          refine noTB_cons_pair tq c _ ?_
            (ih (d :: r) (by simp only [List.length_cons]; omega)
              (fun hm => hbar (List.mem_cons_of_mem _ hm)))
          intro hd hhd hand
          rw [replaceTerm_headQ t d r] at hhd
          injection hhd with h1
          apply hbar
          apply List.mem_cons_of_mem
          rw [← (h1.trans hand.2)]
          exact List.mem_cons_self _ _

theorem noTB_replaceTerm_preserve (tq t : Char) (ht : tq ≠ t) (hb : tq ≠ '|') :
    ∀ (n : Nat) (l : List Char), l.length ≤ n → noTB tq l →
      noTB tq (replaceTerm t l) := by
  intro n
  induction n with
  | zero =>
    intro l hl _
    obtain rfl := List.length_eq_zero.mp (Nat.le_zero.mp hl)
    rw [replaceTerm]
    exact noTB_nil tq
  | succ n ih =>
    intro l hl hno
    cases l with
    | nil => rw [replaceTerm]; exact noTB_nil tq
    | cons c rest =>
      cases rest with
      | nil => rw [replaceTerm]; exact noTB_single tq c
      | cons d r =>
        rw [List.length_cons, List.length_cons] at hl
        by_cases hcd : c = t ∧ d = ' '
        · rw [replaceTerm, if_pos hcd]
          refine noTB_cons_pair tq c _ (fun hd hhd hand => ht (by rw [← hand.1, hcd.1])) ?_
          refine noTB_cons_pair tq '|' _ (fun hd hhd hand => hb hand.1.symm) ?_
          exact ih r (by omega) (noTB_of_cons _ _ _ (noTB_of_cons _ _ _ hno))
        · rw [replaceTerm, if_neg hcd]
          refine noTB_cons_pair tq c _ ?_
            (ih (d :: r) (by simp only [List.length_cons]; omega)
              (noTB_of_cons _ _ _ hno))
          intro hd hhd hand
          rw [replaceTerm_headQ t d r] at hhd
          injection hhd with h1
          rw [noTB] at hno
          exact hno.1 ⟨hand.1, h1.trans hand.2⟩

theorem stripAfter_cons_ne (t c : Char) (m : List Char) (h : c ≠ t) :
    stripAfter t (c :: m) = c :: stripAfter t m := by
  cases m with
  | nil => rw [stripAfter, stripAfter]
  | cons d r => rw [stripAfter, if_neg (fun hand => h hand.1)]

theorem removeBars_replaceTerm (t : Char) (htb : t ≠ '|') :
    ∀ (n : Nat) (l : List Char), l.length ≤ n → noTB t l →
      removeBars (replaceTerm t l) = stripAfter t (removeBars l) := by
  intro n
  induction n with
  | zero =>
    intro l hl _
    obtain rfl := List.length_eq_zero.mp (Nat.le_zero.mp hl)
    rw [replaceTerm]
    simp [removeBars, stripAfter]
  | succ n ih =>
    intro l hl hno
    cases l with
    | nil => rw [replaceTerm]; simp [removeBars, stripAfter]
    | cons c rest =>
      cases rest with
      | nil =>
        rw [replaceTerm]
        by_cases hc : c = '|'
        · rw [hc, removeBars_cons_bar]
          simp [removeBars, stripAfter]
        · rw [removeBars_cons_ne c [] hc]
          rw [show removeBars ([] : List Char) = [] from by simp [removeBars]]
          rw [stripAfter]
      | cons d r =>
        rw [List.length_cons, List.length_cons] at hl
        by_cases hcd : c = t ∧ d = ' '
        · obtain ⟨hc, hd⟩ := hcd
          subst hc
          subst hd
          rw [replaceTerm, if_pos ⟨rfl, rfl⟩]
          rw [removeBars_cons_ne c _ htb, removeBars_cons_bar,
            removeBars_cons_ne c _ htb, removeBars_cons_ne ' ' _ (by decide)]
          rw [ih r (by omega) (noTB_of_cons _ _ _ (noTB_of_cons _ _ _ hno))]
          rw [stripAfter, if_pos ⟨rfl, rfl⟩]
        · rw [replaceTerm, if_neg hcd]
          by_cases hc : c = '|'
          · rw [hc, removeBars_cons_bar, removeBars_cons_bar]
            exact ih (d :: r) (by simp only [List.length_cons]; omega)
              (noTB_of_cons _ _ _ hno)
          · rw [removeBars_cons_ne c _ hc, removeBars_cons_ne c _ hc]
            rw [ih (d :: r) (by simp only [List.length_cons]; omega)
              (noTB_of_cons _ _ _ hno)]
            by_cases hct : c = t
            · by_cases hdb : d = '|'
              · exfalso
                rw [noTB] at hno
                exact hno.1 ⟨hct, hdb⟩
              · rw [removeBars_cons_ne d _ hdb]
                have hds : d ≠ ' ' := fun hd => hcd ⟨hct, hd⟩
                rw [stripAfter, if_neg (fun hand => hds hand.2)]
            · exact (stripAfter_cons_ne t c _ hct).symm

theorem removeBars_eq_self (l : List Char) (h : '|' ∉ l) : removeBars l = l := by
  rw [removeBars]
  refine List.filter_eq_self.mpr ?_
  intro a ha
  have haa : a ≠ '|' := fun heq => h (heq ▸ ha)
  simpa using haa

theorem removeBars_applyReplaces (l : List Char) (hbar : '|' ∉ l) :
    removeBars (applyReplaces l)
      = stripAfter '!' (stripAfter '?' (stripAfter '.' l)) := by
  have hQ := noTB_replaceTerm_of_not_mem '?' '.' (by decide) (by decide)
    l.length l le_rfl hbar
  have hE1 := noTB_replaceTerm_of_not_mem '!' '.' (by decide) (by decide)
    l.length l le_rfl hbar
  have hE := noTB_replaceTerm_preserve '!' '?' (by decide) (by decide)
    (replaceTerm '.' l).length _ le_rfl hE1
  have hD := bar_not_mem_noTB '.' l hbar
  rw [applyReplaces]
  rw [removeBars_replaceTerm '!' (by decide) _ _ le_rfl hE]
  rw [removeBars_replaceTerm '?' (by decide) _ _ le_rfl hQ]
  rw [removeBars_replaceTerm '.' (by decide) _ _ le_rfl hD]
  rw [removeBars_eq_self l hbar]

theorem replaceTerm_eq_self_of_no_space (t : Char) :
    ∀ (n : Nat) (l : List Char), l.length ≤ n → ' ' ∉ l → replaceTerm t l = l := by
  intro n
  induction n with
  | zero =>
    intro l hl _
    obtain rfl := List.length_eq_zero.mp (Nat.le_zero.mp hl)
    rw [replaceTerm]
  | succ n ih =>
    intro l hl hsp
    cases l with
    | nil => rw [replaceTerm]
    | cons c rest =>
      cases rest with
      | nil => rw [replaceTerm]
      | cons d r =>
        rw [List.length_cons, List.length_cons] at hl
        have hd : d ≠ ' ' :=
          fun h => hsp (h ▸ List.mem_cons_of_mem _ (List.mem_cons_self _ _))
        rw [replaceTerm, if_neg (fun hand => hd hand.2)]
        rw [ih (d :: r) (by simp only [List.length_cons]; omega)
          (fun hm => hsp (List.mem_cons_of_mem _ hm))]

theorem splitBar_no_bar : ∀ (l : List Char), '|' ∉ l → splitBar l = [l] := by
  intro l
  induction l with
  | nil => intro _; rw [splitBar]
  | cons c rest ih =>
    intro h
    rw [splitBar, if_neg (fun hc => h (by rw [hc]; exact List.mem_cons_self _ _))]
    rw [ih (fun hm => h (List.mem_cons_of_mem _ hm))]

theorem c3_shape_chunks (xs : List Char) (hsp : ' ' ∉ xs) (hbar : '|' ∉ xs)
    (hlong : ¬(2 + xs.length < chunkLIMIT)) (hne : xs.isEmpty = false) :
    googleChunks ('A' :: '.' :: ' ' :: xs) = [['A', '.'], xs] := by
  have h1 : replaceTerm '.' ('A' :: '.' :: ' ' :: xs) = 'A' :: '.' :: '|' :: xs := by
    rw [replaceTerm, if_neg (by decide)]
    rw [replaceTerm, if_pos ⟨rfl, rfl⟩]
    rw [replaceTerm_eq_self_of_no_space '.' xs.length xs le_rfl hsp]
  have hsp2 : ' ' ∉ ('A' :: '.' :: '|' :: xs) := by
    intro hmem
    simp only [List.mem_cons] at hmem
    rcases hmem with h | h | h | h
    · exact absurd h (by decide)
    · exact absurd h (by decide)
    · exact absurd h (by decide)
    · exact hsp h
  have h2 : applyReplaces ('A' :: '.' :: ' ' :: xs) = 'A' :: '.' :: '|' :: xs := by
    rw [applyReplaces, h1,
      replaceTerm_eq_self_of_no_space '?' _ _ le_rfl hsp2,
      replaceTerm_eq_self_of_no_space '!' _ _ le_rfl hsp2]
  have h3 : splitBar ('A' :: '.' :: '|' :: xs) = [['A', '.'], xs] := by
    rw [splitBar, if_neg (by decide)]
    rw [splitBar, if_neg (by decide)]
    rw [splitBar, if_pos rfl]
    rw [splitBar_no_bar xs hbar]
  rw [googleChunks, if_neg (by
    simp only [List.length_cons, chunkLIMIT] at hlong ⊢
    omega)]
  rw [pySentences, h2, h3]
  rw [greedyChunks, if_pos (by simp [chunkLIMIT])]
  rw [greedyChunks, if_neg (by
    simp only [List.length_append, List.length_nil, List.length_cons,
      List.length_singleton, chunkLIMIT] at hlong ⊢
    omega)]
  rw [if_neg (by simp)]
  rw [greedyChunks, if_neg (by rw [hne]; exact Bool.false_ne_true)]
  rfl

/-- C3 counterexample: for the text "A. " followed by 5000 letters x - which
is longer than the 4500 ceiling and contains the sentence terminator ". " -
the greedy packer emits the 5000-character sentence as a single chunk, so
not every emitted chunk is at most the ceiling
(src/audio_generator/tts_providers.py lines 155-165: a single sentence
longer than the limit is emitted whole). -/
theorem c3_counterexample :
    chunkLIMIT < c3LongText.length
      ∧ ['.', ' '] <:+: c3LongText
      ∧ ¬(∀ ch ∈ googleChunks c3LongText, ch.length ≤ chunkLIMIT) := by
  have hchunks : googleChunks c3LongText = [['A', '.'], List.replicate 5000 'x'] :=
    c3_shape_chunks (List.replicate 5000 'x')
      (by rw [List.mem_replicate]; decide)
      (by rw [List.mem_replicate]; decide)
      (by rw [List.length_replicate, chunkLIMIT]; omega)
      (by
        rw [List.isEmpty_eq_false]
        intro h
        have hlen := congrArg List.length h
        rw [List.length_replicate] at hlen
        simp at hlen)
  refine ⟨?_, ⟨['A'], List.replicate 5000 'x', rfl⟩, ?_⟩
  · rw [c3LongText]
    simp only [List.length_cons, List.length_replicate, chunkLIMIT]
    omega
  · intro h
    have hx := h (List.replicate 5000 'x')
      (by rw [hchunks]; exact List.mem_cons_of_mem _ (List.mem_cons_self _ _))
    rw [List.length_replicate, chunkLIMIT] at hx
    omega

/-- C3 amended: for a text longer than the 4500-character ceiling (and
containing no literal '|', the splitter's internal marker, which the split
silently deletes), every emitted chunk is either strictly shorter than the
ceiling or is verbatim one of the sentences of the terminator split (a
single sentence longer than the ceiling is emitted as its own over-length
chunk), and concatenating the chunks in order reproduces the original text
with the single space following each '. ', '? ', '! ' occurrence removed. -/
theorem c3_amended_chunking (l : List Char) (hlen : chunkLIMIT < l.length)
    (hbar : '|' ∉ l) :
    (∀ ch ∈ googleChunks l, ch.length < chunkLIMIT ∨ ch ∈ pySentences l)
      ∧ (googleChunks l).flatten
          = stripAfter '!' (stripAfter '?' (stripAfter '.' l)) := by
  have hchunks : googleChunks l = greedyChunks chunkLIMIT (pySentences l) [] := by
    rw [googleChunks, if_neg (by omega)]
  constructor
  · rw [hchunks]
    exact greedyChunks_mem chunkLIMIT (pySentences l) (pySentences l) []
      (fun s hs => hs) (Or.inl rfl)
  · rw [hchunks, greedyChunks_flatten, List.nil_append, pySentences,
      splitBar_flatten, removeBars_applyReplaces l hbar]

/-- Witness for C3: the amended statement applied to the concrete 4503
character text "A. xxx...x". -/
theorem c3_amended_witness :
    (∀ ch ∈ googleChunks c3WitnessText,
        ch.length < chunkLIMIT ∨ ch ∈ pySentences c3WitnessText)
      ∧ (googleChunks c3WitnessText).flatten
          = stripAfter '!' (stripAfter '?' (stripAfter '.' c3WitnessText)) :=
  c3_amended_chunking c3WitnessText
    (by rw [c3WitnessText]
        simp only [List.length_cons, List.length_replicate, chunkLIMIT]
        omega)
    (by rw [c3WitnessText]
        intro h
        simp only [List.mem_cons, List.mem_replicate] at h
        rcases h with h | h | h | h
        · exact absurd h (by decide)
        · exact absurd h (by decide)
        · exact absurd h (by decide)
        · exact absurd h.2 (by decide))
